import Mathlib

/-!
# Verification of the CBM BASIC variable dumper (`cbmbasicvardump.py`)

A shallow embedding of the decoder in `src/cbmbasicvardump.py`.  The memory
image is modelled as `List Nat` (each entry one byte, `< 256`); Python's
`data[i]` on an in-range index is `byteAt`.  Multi-byte fields follow the
source's `struct` format strings: `<H` is `u16le`, `>H` is `u16be`, `>h` is
`i16be`.  Fallible operations (`struct.unpack_from` on a short buffer,
`bytearray` index assignment out of range) return `Option`.
-/

namespace CbmVarDump

/-- Python `data[i]`: byte at index `i` of the image (0 outside the list; the claims
that depend on bounds handle lengths explicitly). -/
def byteAt (data : List Nat) (i : Nat) : Nat := data.getD i 0

/-- Field `struct.unpack_from("<H", data, i)`: unsigned 16-bit little endian. -/
def u16le (data : List Nat) (i : Nat) : Nat :=
  byteAt data i + 256 * byteAt data (i + 1)

/-- Field `struct.unpack_from(">H", data, i)`: unsigned 16-bit big endian. -/
def u16be (data : List Nat) (i : Nat) : Nat :=
  256 * byteAt data i + byteAt data (i + 1)

/-- Field `struct.unpack_from(">h", data, i)`: signed 16-bit big endian
(two's complement). -/
def i16be (data : List Nat) (i : Nat) : Int :=
  let u := 256 * byteAt data i + byteAt data (i + 1)
  if u < 32768 then (u : Int) else (u : Int) - 65536

/-- Python `data[a:b]` for `0 ≤ a, b`: slicing clamps to the available bytes
instead of failing. -/
def pySlice (data : List Nat) (a b : Nat) : List Nat :=
  (data.take b).drop a

/-- The `Variable.__init__` name computation: `chr(data[pos] & 0x7f)`, appending
`chr(data[pos+1] & 0x7f)` when that masked byte is nonzero.  We keep the
character codes as `Nat`s. -/
def varName (data : List Nat) (pos : Nat) : List Nat :=
  let c0 := byteAt data pos &&& 0x7f
  let c1 := byteAt data (pos + 1) &&& 0x7f
  if c1 ≠ 0 then [c0, c1] else [c0]

/-- Value of `IntegerVariable.__init__`: `struct.unpack_from(">h", data, pos + 2)`. -/
def integerValue (data : List Nat) (pos : Nat) : Int :=
  i16be data (pos + 2)

/-- Value of `FloatVariable.__init__` on the five bytes `e, m1, m2, m3, m4` unpacked at
`pos + 2`: zero exponent forces mantissa 0; otherwise the mantissa is the
byte polynomial with the top bit of `m4` forced on, negated when `m4 ≥ 128`,
and finally scaled by `2^(e - 128)`.  The Python float arithmetic is exact
here (sums of ≤ 32-bit dyadic rationals), so we compute in `ℚ`. -/
def floatValueOfBytes (e m1 m2 m3 m4 : Nat) : ℚ :=
  let mantissa : ℚ :=
    if e = 0 then 0
    else
      let m : ℚ := (m1 : ℚ) * (2 : ℚ) ^ (-32 : ℤ) + (m2 : ℚ) * (2 : ℚ) ^ (-24 : ℤ)
        + (m3 : ℚ) * (2 : ℚ) ^ (-16 : ℤ) + ((m4 ||| 0x80 : Nat) : ℚ) * (2 : ℚ) ^ (-8 : ℤ)
      if 128 ≤ m4 then -m else m
  mantissa * (2 : ℚ) ^ ((e : ℤ) - 128)

/-- Value of `FloatVariable.__init__`: bytes unpacked with `"<BBBBB"` at `pos + 2`. -/
def floatValue (data : List Nat) (pos : Nat) : ℚ :=
  floatValueOfBytes (byteAt data (pos + 2)) (byteAt data (pos + 3))
    (byteAt data (pos + 4)) (byteAt data (pos + 5)) (byteAt data (pos + 6))

/-- The `StringVariable.__init__` value: `slen, spos = unpack_from("<BH", data,
pos + 2)` and then the (clamping) slice `data[spos : spos + slen]`.  The same
slice expression decodes each string-array element in
`ArrayVariable.__str__` (line 121). -/
def stringValue (data : List Nat) (spos slen : Nat) : List Nat :=
  pySlice data spos (spos + slen)

/-- One decoded scalar variable record, as produced by `Dump.read_var`:
the four variants of the source's class hierarchy with the fields their
constructors compute (`BasicFunction.__init__` computes only the name). -/
inductive VariableRecord where
  | integer (name : List Nat) (value : Int)
  | function (name : List Nat)
  | string (name : List Nat) (slen spos : Nat) (value : List Nat)
  | float (name : List Nat) (value : ℚ)
  deriving DecidableEq, Repr

/-- The name stored in a decoded record. -/
def VariableRecord.recName : VariableRecord → List Nat
  | .integer n _ => n
  | .function n => n
  | .string n _ _ _ => n
  | .float n _ => n

/-- The four record shapes, for stating classification facts. -/
inductive VarKind where
  | integer
  | function
  | string
  | float
  deriving DecidableEq, Repr

/-- The shape of a decoded record. -/
def VariableRecord.kind : VariableRecord → VarKind
  | .integer _ _ => .integer
  | .function _ => .function
  | .string _ _ _ _ => .string
  | .float _ _ => .float

/-- Decoder `Dump.read_var`: dispatch on `data[pos] >= 0x80` (`ivarfun`) and
`data[pos+1] >= 0x80` (`ivarstr`), constructing the matching variant. -/
def read_var (data : List Nat) (pos : Nat) : VariableRecord :=
  let ivarfun := 0x80 ≤ byteAt data pos
  let ivarstr := 0x80 ≤ byteAt data (pos + 1)
  if ivarfun ∧ ivarstr then
    .integer (varName data pos) (integerValue data pos)
  else if ivarfun then
    .function (varName data pos)
  else if ivarstr then
    .string (varName data pos) (byteAt data (pos + 2)) (u16le data (pos + 3))
      (stringValue data (u16le data (pos + 3)) (byteAt data (pos + 2)))
  else
    .float (varName data pos) (floatValue data pos)

/-- The six layout-header fields `Dump.__init__` keeps (the seventh unpacked
value, between `fretop` and `memsiz`, is bound to `dummy` and dropped). -/
structure DumpHeader where
  txttab : Nat
  vartab : Nat
  arytab : Nat
  strend : Nat
  fretop : Nat
  memsiz : Nat
  deriving DecidableEq, Repr

/-- The header read of `Dump.__init__`:
`struct.unpack_from("<HHHHHHH", data, 0x2b)` unpacks seven little-endian
16-bit values starting at offset 0x2b, which raises `struct.error` when the
buffer holds fewer than `0x2b + 14` bytes; on success the fields are
`txttab, vartab, arytab, strend, fretop, dummy, memsiz` in order. -/
def readHeader (data : List Nat) : Option DumpHeader :=
  if 0x2b + 14 ≤ data.length then
    some ⟨u16le data 0x2b, u16le data 0x2d, u16le data 0x2f,
          u16le data 0x31, u16le data 0x33, u16le data 0x37⟩
  else none

/-- Field `self.bytes` of `ArrayVariable.__init__`, the record's total size,
`struct.unpack_from("<H", data, pos + 2)`. -/
def arrayBytes (data : List Nat) (pos : Nat) : Nat :=
  u16le data (pos + 2)

/-- Field `self.dim` of `ArrayVariable.__init__`, the dimension count byte at
`pos + 4`. -/
def arrayDim (data : List Nat) (pos : Nat) : Nat :=
  byteAt data (pos + 4)

/-- Field `self.nelems` of `ArrayVariable.__init__`, the per-dimension element
counts, `struct.unpack_from(">H", data, pos + 5 + 2*i)` for
`i in range(self.dim)` — big endian, in storage order. -/
def arrayNelems (data : List Nat) (pos : Nat) : List Nat :=
  (List.range (arrayDim data pos)).map (fun i => u16be data (pos + 5 + 2 * i))

/-- The `ArrayVariable.__str__` dimension list: `"%d" % (i - 1) for i in
self.nelems`, i.e. each stored count minus one, in the order `self.nelems`
holds them (Python `int` subtraction, so the result lives in `ℤ`). -/
def arrayDisplayedDims (data : List Nat) (pos : Nat) : List Int :=
  (arrayNelems data pos).map (fun c => (c : Int) - 1)

/-- The `ArrayVariable.__str__` string-array element loop: for
`i in range(0, int((self.bytes - 5 - 2*self.dim)/3))` unpack
`slen, spos = unpack_from("<BH", data, pos + 5 + 2*dim + 3*i)` and slice
`value = data[spos : spos + slen]`.  Python's `int(x/3)` truncates toward
zero and `range` of a negative bound is empty, which on naturals is exactly
truncated subtraction followed by `Nat` division. -/
def stringArrayElems (data : List Nat) (pos : Nat) : List (Nat × Nat × List Nat) :=
  let dim := arrayDim data pos
  (List.range ((arrayBytes data pos - 5 - 2 * dim) / 3)).map (fun i =>
    let slen := byteAt data (pos + 5 + 2 * dim + 3 * i)
    let spos := u16le data (pos + 5 + 2 * dim + 3 * i + 1)
    (slen, spos, stringValue data spos slen))

/-- Inner loop of `Dump.mark_used`: `for i in range(spos, epos):
self.used[i] = 1`, with the iteration count `epos - spos` made explicit.
Assigning `self.used[i]` raises `IndexError` when `i` is out of the
bytearray's range, so the step is fallible. -/
def markUsedGo (used : List Bool) (i : Nat) : Nat → Option (List Bool)
  | 0 => some used
  | n + 1 =>
    if i < used.length then markUsedGo (used.set i true) (i + 1) n
    else none

/-- Operation `Dump.mark_used(spos, epos)` acting on the `used` map. -/
def mark_used (used : List Bool) (spos epos : Nat) : Option (List Bool) :=
  markUsedGo used spos (epos - spos)

/-- Loop of `Dump.print_heap_garbage`, emitting ranges instead of printing
them: scanning index `i` with `n` iterations left (`n` counts down to the
upper bound `hi`), `start` the pending open-run start.  A used byte closes
the open run at `i`; an unused byte opens a run at `i` if none is open; the
run still open when the scan ends is flushed with end `hi`
(`print_garbage(start, self.memsiz, ...)`). -/
def garbageLoop (used : Nat → Bool) (hi : Nat) (start : Option Nat) (i : Nat) :
    Nat → List (Nat × Nat)
  | 0 => match start with
    | some s => [(s, hi)]
    | none => []
  | n + 1 =>
    if used i then
      match start with
      | some s => (s, i) :: garbageLoop used hi none (i + 1) n
      | none => garbageLoop used hi none (i + 1) n
    else
      match start with
      | some s => garbageLoop used hi (some s) (i + 1) n
      | none => garbageLoop used hi (some i) (i + 1) n

/-- The scan of `Dump.print_heap_garbage` over `for i in range(lo, hi)`:
the list of garbage ranges it reports, in emission order. -/
def findGarbageRanges (used : Nat → Bool) (lo hi : Nat) : List (Nat × Nat) :=
  garbageLoop used hi none lo (hi - lo)

/-- The `ArrayVariable.__init__` total size as used by the array-table cursor:
`arr.bytes` at the cursor position. -/
def arrayBytesAt (data : List Nat) (pos : Nat) : Nat :=
  arrayBytes data pos

/-- Array-table loop of `analyse_dump` with explicit fuel: `pos = arytab;
while pos < strend: ... pos += arr.bytes`.  Returns the visited record
positions when the loop finishes within `fuel` iterations, `none`
otherwise. -/
def arrayIterGo (data : List Nat) (strend : Nat) : Nat → Nat → Option (List Nat)
  | 0, pos => if pos < strend then none else some []
  | fuel + 1, pos =>
    if pos < strend then
      match arrayIterGo data strend fuel (pos + arrayBytesAt data pos) with
      | some rest => some (pos :: rest)
      | none => none
    else some []

/-! ## Helper lemmas on bytes and bits -/

theorem and_127_eq_mod (b : Nat) : b &&& 127 = b % 128 := by
  have h := Nat.and_pow_two_sub_one_eq_mod b 7
  norm_num at h
  exact h

theorem testBit7_eq_decide (b : Nat) (h : b < 256) :
    b.testBit 7 = decide (128 ≤ b) := by
  rw [Nat.testBit_to_div_mod, decide_eq_decide]
  omega

theorem le_or_128 (b : Nat) : 128 ≤ b ||| 128 := by
  have h := Nat.testBit_lor b 128 7
  by_contra hc
  push_neg at hc
  have h1 : (b ||| 128).testBit 7 = false := by
    apply Nat.testBit_eq_false_of_lt
    omega
  have h2 : (128 : Nat).testBit 7 = true := by decide
  simp [h2, h1] at h

theorem or_128_lt_256 (b : Nat) (h : b < 256) : b ||| 128 < 256 := by
  have hlt : b ||| 128 < 2 ^ 8 := Nat.or_lt_two_pow (by omega) (by omega)
  omega

/-! ## Claim theorems -/

/-- C1: `Dump.read_var` classifies a record purely from the unmasked high
bits of the two name bytes — both set gives Integer, only byte 0's set gives
Function, only byte 1's set gives String, both clear gives Float — and the
record's name masks the high bit off each of the first two bytes, dropping
the second character when its masked value is zero. -/
theorem read_var_classifies_by_high_bits (data : List Nat) (pos : Nat)
    (h0 : byteAt data pos < 256) (h1 : byteAt data (pos + 1) < 256) :
    (((byteAt data pos).testBit 7 = true ∧ (byteAt data (pos + 1)).testBit 7 = true) →
      (read_var data pos).kind = .integer) ∧
    (((byteAt data pos).testBit 7 = true ∧ (byteAt data (pos + 1)).testBit 7 = false) →
      (read_var data pos).kind = .function) ∧
    (((byteAt data pos).testBit 7 = false ∧ (byteAt data (pos + 1)).testBit 7 = true) →
      (read_var data pos).kind = .string) ∧
    (((byteAt data pos).testBit 7 = false ∧ (byteAt data (pos + 1)).testBit 7 = false) →
      (read_var data pos).kind = .float) ∧
    (read_var data pos).recName =
      (if byteAt data (pos + 1) % 128 = 0 then [byteAt data pos % 128]
       else [byteAt data pos % 128, byteAt data (pos + 1) % 128]) := by
  rw [testBit7_eq_decide _ h0, testBit7_eq_decide _ h1]
  have hname : varName data pos =
      (if byteAt data (pos + 1) % 128 = 0 then [byteAt data pos % 128]
       else [byteAt data pos % 128, byteAt data (pos + 1) % 128]) := by
    rw [varName]
    simp only [and_127_eq_mod]
    by_cases hz : byteAt data (pos + 1) % 128 = 0 <;> simp [hz]
  by_cases hf : 128 ≤ byteAt data pos <;>
    by_cases hs : 128 ≤ byteAt data (pos + 1) <;>
      simp [read_var, VariableRecord.kind, VariableRecord.recName, hf, hs, hname]

/-- C1 witness: instantiation at a concrete one-byte-name float record. -/
theorem read_var_classifies_by_high_bits_witness :
    (read_var [65, 0, 0, 0, 0, 0, 0] 0).recName =
      (if byteAt [65, 0, 0, 0, 0, 0, 0] 1 % 128 = 0 then [byteAt [65, 0, 0, 0, 0, 0, 0] 0 % 128]
       else [byteAt [65, 0, 0, 0, 0, 0, 0] 0 % 128, byteAt [65, 0, 0, 0, 0, 0, 0] 1 % 128]) :=
  (read_var_classifies_by_high_bits [65, 0, 0, 0, 0, 0, 0] 0 (by decide) (by decide)).2.2.2.2

/-- C3: a Float record with exponent byte 0 decodes to exactly 0 regardless
of the mantissa bytes; with a nonzero exponent it decodes to
`s * f * 2^(e-128)` where `f` is the mantissa-byte polynomial with the top
bit of the last mantissa byte forced on, `f` lies in `[1/2, 1)`, and the
sign `s` is `-1` exactly when bit 7 of the last mantissa byte is set. -/
theorem float_decode_polynomial (e m1 m2 m3 m4 : Nat)
    (hb1 : m1 < 256) (hb2 : m2 < 256) (hb3 : m3 < 256) (hb4 : m4 < 256) :
    (e = 0 → floatValueOfBytes e m1 m2 m3 m4 = 0) ∧
    (e ≠ 0 →
      floatValueOfBytes e m1 m2 m3 m4 =
        (if m4.testBit 7 = true then (-1 : ℚ) else 1) *
          ((m1 : ℚ) * (2 : ℚ) ^ (-32 : ℤ) + (m2 : ℚ) * (2 : ℚ) ^ (-24 : ℤ)
            + (m3 : ℚ) * (2 : ℚ) ^ (-16 : ℤ) + ((m4 ||| 0x80 : Nat) : ℚ) * (2 : ℚ) ^ (-8 : ℤ)) *
          (2 : ℚ) ^ ((e : ℤ) - 128) ∧
      (1 / 2 : ℚ) ≤ (m1 : ℚ) * (2 : ℚ) ^ (-32 : ℤ) + (m2 : ℚ) * (2 : ℚ) ^ (-24 : ℤ)
            + (m3 : ℚ) * (2 : ℚ) ^ (-16 : ℤ) + ((m4 ||| 0x80 : Nat) : ℚ) * (2 : ℚ) ^ (-8 : ℤ) ∧
      (m1 : ℚ) * (2 : ℚ) ^ (-32 : ℤ) + (m2 : ℚ) * (2 : ℚ) ^ (-24 : ℤ)
            + (m3 : ℚ) * (2 : ℚ) ^ (-16 : ℤ) + ((m4 ||| 0x80 : Nat) : ℚ) * (2 : ℚ) ^ (-8 : ℤ)
        < 1) := by
  have e32 : (2 : ℚ) ^ (-32 : ℤ) = 1 / 4294967296 := by norm_num
  have e24 : (2 : ℚ) ^ (-24 : ℤ) = 1 / 16777216 := by norm_num
  have e16 : (2 : ℚ) ^ (-16 : ℤ) = 1 / 65536 := by norm_num
  have e8 : (2 : ℚ) ^ (-8 : ℤ) = 1 / 256 := by norm_num
  have hq1 : (m1 : ℚ) ≤ 255 := by exact_mod_cast Nat.le_of_lt_succ hb1
  have hq2 : (m2 : ℚ) ≤ 255 := by exact_mod_cast Nat.le_of_lt_succ hb2
  have hq3 : (m3 : ℚ) ≤ 255 := by exact_mod_cast Nat.le_of_lt_succ hb3
  have hn1 : (0 : ℚ) ≤ (m1 : ℚ) := Nat.cast_nonneg m1
  have hn2 : (0 : ℚ) ≤ (m2 : ℚ) := Nat.cast_nonneg m2
  have hn3 : (0 : ℚ) ≤ (m3 : ℚ) := Nat.cast_nonneg m3
  have hor : (128 : ℚ) ≤ ((m4 ||| 128 : Nat) : ℚ) := by exact_mod_cast le_or_128 m4
  have hor2 : ((m4 ||| 128 : Nat) : ℚ) ≤ 255 := by
    exact_mod_cast Nat.le_of_lt_succ (or_128_lt_256 m4 hb4)
  refine ⟨fun he => by simp [floatValueOfBytes, he], fun he => ⟨?_, ?_, ?_⟩⟩
  · rw [floatValueOfBytes, testBit7_eq_decide m4 hb4]
    simp only [if_neg he]
    by_cases hs : 128 ≤ m4 <;> simp [hs]
  · rw [e32, e24, e16, e8]
    linarith
  · rw [e32, e24, e16, e8]
    linarith

/-- C3 witness: exponent byte 0 with nonzero mantissa bytes decodes to 0. -/
theorem float_decode_polynomial_witness :
    floatValueOfBytes 0 1 2 3 4 = 0 :=
  (float_decode_polynomial 0 1 2 3 4 (by decide) (by decide) (by decide) (by decide)).1 rfl

/-- C4: an Integer record's value is the 16-bit signed big-endian
interpretation of the two bytes immediately after the name bytes — the
name bytes themselves (and so their high bits) do not influence the value —
and the concrete records with value bytes `0x00 0x05` and `0xFF 0xFB`
under `fun=1, str=1` decode to 5 and -5. -/
theorem integer_decode_big_endian_signed :
    (∀ (data : List Nat) (pos b2 b3 : Nat),
      byteAt data (pos + 2) = b2 → byteAt data (pos + 3) = b3 →
      integerValue data pos =
        (if 256 * b2 + b3 < 32768 then ((256 * b2 + b3 : Nat) : Int)
         else ((256 * b2 + b3 : Nat) : Int) - 65536)) ∧
    read_var [0xC9, 0x80, 0x00, 0x05, 0, 0, 0] 0 = .integer [0x49] 5 ∧
    read_var [0xC9, 0x80, 0xFF, 0xFB, 0, 0, 0] 0 = .integer [0x49] (-5) := by
  refine ⟨fun data pos b2 b3 h2 h3 => ?_, by decide, by decide⟩
  subst h2
  subst h3
  rfl

/-- C4 witness: the value computation applied to a concrete buffer. -/
theorem integer_decode_big_endian_signed_witness :
    integerValue [0, 0, 255, 251] 0 =
      (if 256 * 255 + 251 < 32768 then ((256 * 255 + 251 : Nat) : Int)
       else ((256 * 255 + 251 : Nat) : Int) - 65536) :=
  integer_decode_big_endian_signed.1 [0, 0, 255, 251] 0 255 251 rfl rfl

/-- C2 (evaluation at the failing input): the array record of `DIM A(3,5)`,
whose element counts are stored last-declared-first as 6 then 4 (the layout
the `ArrayVariable` docstring documents), has its dimension list displayed
as `5,3` — storage order — although the `__str__` docstring promises the
declared order `3,5`. -/
theorem array_dims_displayed_in_storage_order :
    arrayNelems [0x41, 0x00, 0x0F, 0x00, 0x02, 0x00, 0x06, 0x00, 0x04] 0 = [6, 4] ∧
    arrayDisplayedDims [0x41, 0x00, 0x0F, 0x00, 0x02, 0x00, 0x06, 0x00, 0x04] 0 = [5, 3] ∧
    arrayDisplayedDims [0x41, 0x00, 0x0F, 0x00, 0x02, 0x00, 0x06, 0x00, 0x04] 0 ≠ [3, 5] := by
  refine ⟨?_, ?_, ?_⟩ <;> decide

/-- C6 counterexample: an image of 56 bytes is at least `0x2b + 12` bytes
long, so the claim says the header read succeeds, but the code's
`struct.unpack_from("<HHHHHHH", data, 0x2b)` needs `0x2b + 14` bytes and
fails. -/
theorem readHeader_fails_on_56_byte_image :
    0x2b + 12 ≤ (List.replicate 56 0).length ∧
    readHeader (List.replicate 56 0) = none := by
  refine ⟨?_, ?_⟩ <;> decide

/-- C6 amended: the header read fails exactly when the image is shorter than
`0x2b + 14` bytes (six pointers plus the read-but-unused reserved word);
on an image at least that long it returns the six 16-bit little-endian
pointers read at `0x2b`, skipping the reserved word at `0x35`. -/
theorem readHeader_iff_image_long_enough (data : List Nat) :
    (readHeader data = none ↔ data.length < 0x2b + 14) ∧
    (0x2b + 14 ≤ data.length →
      readHeader data = some ⟨u16le data 0x2b, u16le data 0x2d, u16le data 0x2f,
        u16le data 0x31, u16le data 0x33, u16le data 0x37⟩) := by
  constructor
  · rw [readHeader]
    split <;> simp <;> omega
  · intro h
    rw [readHeader, if_pos h]

/-- C6 amended witness: a 57-byte image decodes successfully. -/
theorem readHeader_iff_image_long_enough_witness :
    readHeader (List.replicate 57 0) = some ⟨u16le (List.replicate 57 0) 0x2b,
      u16le (List.replicate 57 0) 0x2d, u16le (List.replicate 57 0) 0x2f,
      u16le (List.replicate 57 0) 0x31, u16le (List.replicate 57 0) 0x33,
      u16le (List.replicate 57 0) 0x37⟩ :=
  (readHeader_iff_image_long_enough (List.replicate 57 0)).2 (by simp)

/-- C8: the string-array element loop decodes exactly
`(totalBytes - (5 + 2*dim)) / 3` three-byte descriptors (integer division,
any remainder silently dropped — the count is total for every input, no
error path), each one a 1-byte length followed by a 16-bit little-endian
heap pointer (and the value bytes the pointer references). -/
theorem string_array_descriptor_count (data : List Nat) (pos : Nat) :
    (stringArrayElems data pos).length =
      (arrayBytes data pos - (5 + 2 * arrayDim data pos)) / 3 ∧
    ∀ (i : Nat) (h : i < (stringArrayElems data pos).length),
      (stringArrayElems data pos)[i] =
        (byteAt data (pos + 5 + 2 * arrayDim data pos + 3 * i),
         u16le data (pos + 5 + 2 * arrayDim data pos + 3 * i + 1),
         stringValue data (u16le data (pos + 5 + 2 * arrayDim data pos + 3 * i + 1))
           (byteAt data (pos + 5 + 2 * arrayDim data pos + 3 * i))) := by
  constructor
  · simp [stringArrayElems, Nat.sub_sub]
  · intro i h
    simp [stringArrayElems]

/-- C8 witness: a string array with 1 descriptor after a 0-dimension
table. -/
theorem string_array_descriptor_count_witness :
    (stringArrayElems [65, 128, 8, 0, 0, 2, 0, 0] 0).get ⟨0, by decide⟩ =
      (2, 0, [65, 128]) :=
  ((string_array_descriptor_count [65, 128, 8, 0, 0, 2, 0, 0] 0).2 0 (by decide)).trans
    (by decide)

/-- C9: when a string descriptor's heap pointer `spos` plus length `slen`
overruns the image, the decode does not fail: the value is silently
truncated to the bytes from `spos` to the end of the image, and is empty
when `spos` is at or past the end.  `stringValue` is the slice used both by
`StringVariable.__init__` and by the string-array element loop. -/
theorem string_value_truncated_silently (data : List Nat) (spos slen : Nat)
    (h : data.length < spos + slen) :
    stringValue data spos slen = data.drop spos ∧
    (data.length ≤ spos → stringValue data spos slen = []) := by
  constructor
  · rw [stringValue, pySlice, List.take_of_length_le (by omega)]
  · intro h2
    rw [stringValue, pySlice, List.take_of_length_le (by omega),
      List.drop_eq_nil_of_le h2]

/-- C9 witness: a 3-byte image with a descriptor pointing at offset 2 with
length 5 yields the single available byte. -/
theorem string_value_truncated_silently_witness :
    stringValue [10, 20, 30] 2 5 = ([10, 20, 30] : List Nat).drop 2 :=
  (string_value_truncated_silently [10, 20, 30] 2 5 (by decide)).1

/-! ## Liveness map marking (C7) -/

theorem getD_set_bool (l : List Bool) (i j : Nat) (h : i < l.length) :
    (l.set i true).getD j false = (l.getD j false || decide (j = i)) := by
  by_cases hij : i = j
  · subst hij
    simp [List.getD_eq_getElem?_getD, List.getElem?_set_self h]
  · simp [List.getD_eq_getElem?_getD, List.getElem?_set_ne hij, Ne.symm hij]

theorem list_bool_ext (a b : List Bool) (hlen : a.length = b.length)
    (h : ∀ j, a.getD j false = b.getD j false) : a = b := by
  apply List.ext_getElem hlen
  intro i h1 h2
  have hi := h i
  rw [List.getD_eq_getElem?_getD, List.getD_eq_getElem?_getD,
    List.getElem?_eq_getElem h1, List.getElem?_eq_getElem h2] at hi
  simpa using hi

theorem markUsedGo_some (n : Nat) : ∀ (used : List Bool) (i : Nat),
    i + n ≤ used.length ∨ n = 0 →
    ∃ m, markUsedGo used i n = some m ∧ m.length = used.length ∧
      ∀ j, m.getD j false = (used.getD j false || decide (i ≤ j ∧ j < i + n)) := by
  induction n with
  | zero =>
    intro used i _
    refine ⟨used, rfl, rfl, fun j => ?_⟩
    have hj : ¬(i ≤ j ∧ j < i + 0) := by omega
    simp [hj]
  | succ n ih =>
    intro used i h
    have hi : i < used.length := by omega
    obtain ⟨m, hm, hmlen, hchar⟩ :=
      ih (used.set i true) (i + 1) (by rw [List.length_set]; omega)
    refine ⟨m, ?_, ?_, fun j => ?_⟩
    · simpa only [markUsedGo, if_pos hi] using hm
    · rw [hmlen, List.length_set]
    · have hsplit : (decide (j = i) || decide (i + 1 ≤ j ∧ j < i + 1 + n)) =
          decide (i ≤ j ∧ j < i + (n + 1)) := by
        by_cases h1 : j = i <;> by_cases h2 : i + 1 ≤ j ∧ j < i + 1 + n <;>
          simp [h1, h2] <;> omega
      rw [hchar j, getD_set_bool used i j hi, Bool.or_assoc, hsplit]

theorem markUsedGo_none (n : Nat) : ∀ (used : List Bool) (i : Nat),
    1 ≤ n → used.length < i + n → markUsedGo used i n = none := by
  induction n with
  | zero => intro used i h _; omega
  | succ n ih =>
    intro used i _ h
    by_cases hi : i < used.length
    · have hn : 1 ≤ n := by omega
      have := ih (used.set i true) (i + 1) hn (by rw [List.length_set]; omega)
      simpa only [markUsedGo, if_pos hi] using this
    · simp only [markUsedGo, if_neg hi]

theorem mark_used_some (used : List Bool) (spos epos : Nat)
    (h : epos ≤ used.length ∨ epos ≤ spos) :
    ∃ m, mark_used used spos epos = some m ∧ m.length = used.length ∧
      ∀ j, m.getD j false = (used.getD j false || decide (spos ≤ j ∧ j < epos)) := by
  obtain ⟨m, hm, hmlen, hchar⟩ :=
    markUsedGo_some (epos - spos) used spos (by omega)
  refine ⟨m, hm, hmlen, fun j => ?_⟩
  rw [hchar j]
  congr 1
  exact decide_eq_decide.mpr (by omega)

/-- C7 counterexample: `markUsed(0, 2)` on a one-byte map raises
(`IndexError` on the bytearray assignment), while the claim says `markUsed`
never fails and is a no-op on an out-of-bounds range. -/
theorem mark_used_out_of_bounds_fails :
    mark_used [false] 0 2 = none := by decide

/-- C7 amended: `markUsed(start, end)` is a no-op (and succeeds) when
`end ≤ start`; when the range fits the map (`end ≤ length`) it succeeds and
marks exactly the bytes of `[start, end)`, leaving the rest unchanged; it
fails exactly when the nonempty range reaches past the map's end; and on
success it is idempotent. -/
theorem mark_used_range_spec (used : List Bool) (spos epos : Nat) :
    (epos ≤ spos → mark_used used spos epos = some used) ∧
    (epos ≤ used.length ∨ epos ≤ spos →
      ∃ m, mark_used used spos epos = some m ∧ m.length = used.length ∧
        ∀ j, m.getD j false = (used.getD j false || decide (spos ≤ j ∧ j < epos))) ∧
    (spos < epos → used.length < epos → mark_used used spos epos = none) ∧
    (∀ m, mark_used used spos epos = some m → mark_used m spos epos = some m) := by
  refine ⟨?_, mark_used_some used spos epos, ?_, ?_⟩
  · intro h
    rw [mark_used, Nat.sub_eq_zero_of_le h]
    rfl
  · intro h1 h2
    exact markUsedGo_none (epos - spos) used spos (by omega) (by omega)
  · intro m hm
    have hok : epos ≤ used.length ∨ epos ≤ spos := by
      by_contra hc
      push_neg at hc
      have hnone : mark_used used spos epos = none :=
        markUsedGo_none (epos - spos) used spos (by omega) (by omega)
      rw [hnone] at hm
      exact Option.noConfusion hm
    obtain ⟨m1, hm1, hlen1, hchar1⟩ := mark_used_some used spos epos hok
    have hme : m1 = m := by
      rw [hm1] at hm
      exact Option.some.inj hm
    subst hme
    obtain ⟨m2, hm2, hlen2, hchar2⟩ := mark_used_some m1 spos epos (by omega)
    have : m2 = m1 := by
      apply list_bool_ext m2 m1 hlen2
      intro j
      rw [hchar2 j, hchar1 j, Bool.or_assoc, Bool.or_self]
    rw [hm2, this]

/-- C7 amended witness: marking `[1,3)` twice on a 3-byte map leaves the
map of the single marking. -/
theorem mark_used_range_spec_witness :
    mark_used [false, true, true] 1 3 = some [false, true, true] :=
  (mark_used_range_spec [false, false, false] 1 3).2.2.2 [false, true, true] (by decide)

/-! ## Array-table iteration (C10) -/

/-- The cursor positions the array-table loop of `analyse_dump` visits:
it starts at `arytab` and, while inside the table, advances by the record's
self-reported byte length. -/
inductive ArrayCursor (data : List Nat) (arytab strend : Nat) : Nat → Prop where
  | start : ArrayCursor data arytab strend arytab
  | step {pos : Nat} : ArrayCursor data arytab strend pos → pos < strend →
      ArrayCursor data arytab strend (pos + arrayBytesAt data pos)

/-- C10: the array-table loop terminates whenever every decoded record (one
per visited cursor position inside the table) reports a total byte length of
at least 1 — fuel `strend - arytab` suffices — and a record reporting byte
length 0 keeps the cursor in place, so the loop runs forever (no finite
fuel completes it). -/
theorem array_iteration_terminates (data : List Nat) (strend : Nat) :
    (∀ (arytab fuel : Nat),
      (∀ pos, ArrayCursor data arytab strend pos → pos < strend →
        1 ≤ arrayBytesAt data pos) →
      strend - arytab ≤ fuel →
      (arrayIterGo data strend fuel arytab).isSome = true) ∧
    (∀ pos, pos < strend → arrayBytesAt data pos = 0 →
      ∀ fuel, arrayIterGo data strend fuel pos = none) := by
  constructor
  · intro arytab fuel
    -- strengthen: run from any visited position
    suffices h : ∀ (f : Nat) (pos : Nat), ArrayCursor data arytab strend pos →
        (∀ q, ArrayCursor data arytab strend q → q < strend →
          1 ≤ arrayBytesAt data q) →
        strend - pos ≤ f → (arrayIterGo data strend f pos).isSome = true by
      intro hpos hle
      exact h fuel arytab .start hpos hle
    intro f
    induction f with
    | zero =>
      intro pos _ _ hle
      have hge : ¬pos < strend := by omega
      rw [arrayIterGo, if_neg hge]
      rfl
    | succ f ih =>
      intro pos hc hpos hle
      by_cases hlt : pos < strend
      · have hb := hpos pos hc hlt
        have hrec := ih (pos + arrayBytesAt data pos) (.step hc hlt) hpos (by omega)
        obtain ⟨rest, hr⟩ := Option.isSome_iff_exists.mp hrec
        simp only [arrayIterGo, if_pos hlt, hr, Option.isSome_some]
      · simp only [arrayIterGo, if_neg hlt, Option.isSome_some]
  · intro pos hlt hzero fuel
    induction fuel with
    | zero => rw [arrayIterGo, if_pos hlt]
    | succ fuel ih =>
      simp only [arrayIterGo, if_pos hlt, hzero, Nat.add_zero, ih]

/-- C10 witness: the loop on an empty array region terminates at once. -/
theorem array_iteration_terminates_witness :
    (arrayIterGo [] 0 0 0).isSome = true :=
  (array_iteration_terminates [] 0).1 0 0 (fun pos _ hlt => by omega) (by omega)

/-! ## Garbage scan (C5) -/

/-- Spec-side characterisation of one reported garbage range: a maximal run
of consecutive unmarked bytes within `[lo, hi)` — nonempty, all bytes
unmarked, bounded on the left by `lo` or a marked byte, and on the right by
`hi` or a marked byte. -/
def isGarbageRun (used : Nat → Bool) (lo hi s e : Nat) : Prop :=
  lo ≤ s ∧ s < e ∧ e ≤ hi ∧
  (∀ j, s ≤ j → j < e → used j = false) ∧
  (s = lo ∨ used (s - 1) = true) ∧
  (e = hi ∨ used e = true)

theorem garbageRun_shift_of_used (used : Nat → Bool) (i hi s e : Nat)
    (hu : used i = true) :
    isGarbageRun used (i + 1) hi s e ↔ isGarbageRun used i hi s e := by
  unfold isGarbageRun
  constructor
  · rintro ⟨h1, h2, h3, h4, h5, h6⟩
    refine ⟨by omega, h2, h3, h4, ?_, h6⟩
    rcases h5 with h5 | h5
    · right
      have : s - 1 = i := by omega
      rw [this]
      exact hu
    · right
      exact h5
  · rintro ⟨h1, h2, h3, h4, h5, h6⟩
    have hsi : s ≠ i := by
      intro hsi
      have hf := h4 s (le_refl s) h2
      rw [hsi, hu] at hf
      exact Bool.noConfusion hf
    refine ⟨by omega, h2, h3, h4, ?_, h6⟩
    rcases h5 with h5 | h5
    · exact absurd h5 hsi
    · right
      exact h5

theorem garbageRun_shift_of_unused (used : Nat → Bool) (i hi s e : Nat)
    (hu : used i = false) :
    (isGarbageRun used (i + 1) hi s e ∧ i + 1 < s) ↔
      (isGarbageRun used i hi s e ∧ i < s) := by
  unfold isGarbageRun
  constructor
  · rintro ⟨⟨h1, h2, h3, h4, h5, h6⟩, hgt⟩
    refine ⟨⟨by omega, h2, h3, h4, ?_, h6⟩, by omega⟩
    rcases h5 with h5 | h5
    · omega
    · right
      exact h5
  · rintro ⟨⟨h1, h2, h3, h4, h5, h6⟩, hgt⟩
    have hs : s ≠ i + 1 := by
      intro hsi
      rcases h5 with h5 | h5
      · omega
      · have : s - 1 = i := by omega
        rw [this, hu] at h5
        exact Bool.noConfusion h5
    refine ⟨⟨by omega, h2, h3, h4, ?_, h6⟩, by omega⟩
    rcases h5 with h5 | h5
    · omega
    · right
      exact h5

theorem garbageLoop_mem (used : Nat → Bool) : ∀ (n : Nat),
    (∀ i s e, ((s, e) ∈ garbageLoop used (i + n) none i n ↔
      isGarbageRun used i (i + n) s e)) ∧
    (∀ i s0, s0 < i → (∀ j, s0 ≤ j → j < i → used j = false) →
      ∀ s e, ((s, e) ∈ garbageLoop used (i + n) (some s0) i n ↔
        ((s = s0 ∧ s0 < e ∧ e ≤ i + n ∧ (∀ j, s0 ≤ j → j < e → used j = false) ∧
          (e = i + n ∨ used e = true)) ∨
         (isGarbageRun used i (i + n) s e ∧ i < s)))) := by
  intro n
  induction n with
  | zero =>
    constructor
    · intro i s e
      simp only [Nat.add_zero, garbageLoop, List.not_mem_nil, false_iff]
      rintro ⟨h1, h2, h3, -⟩
      omega
    · intro i s0 hlt0 hclear0 s e
      simp only [Nat.add_zero, garbageLoop, List.mem_singleton, Prod.mk.injEq]
      constructor
      · rintro ⟨hs, he⟩
        exact Or.inl ⟨hs, by omega, by omega,
          fun j hj1 hj2 => hclear0 j hj1 (by omega), Or.inl (by omega)⟩
      · rintro (⟨hs, h2, h3, h4, h5⟩ | ⟨⟨g1, g2, g3, -⟩, -⟩)
        · have he : e = i := by
            by_contra hne
            have helt : e < i := by omega
            have h5' : used e = true := by
              rcases h5 with h5 | h5
              · omega
              · exact h5
            have hf := hclear0 e (by omega) helt
            rw [hf] at h5'
            exact Bool.noConfusion h5'
          exact ⟨hs, he⟩
        · omega
  | succ n ih =>
    obtain ⟨ihn, ihs⟩ := ih
    have harith : ∀ j : Nat, j + (n + 1) = (j + 1) + n := fun j => by omega
    constructor
    · intro i s e
      rw [harith i]
      cases hu : used i with
      | true =>
        have hred : garbageLoop used ((i + 1) + n) none i (n + 1) =
            garbageLoop used ((i + 1) + n) none (i + 1) n := by
          simp only [garbageLoop, hu, if_true]
        rw [hred, ihn (i + 1) s e,
          garbageRun_shift_of_used used i ((i + 1) + n) s e hu]
      | false =>
        have hred : garbageLoop used ((i + 1) + n) none i (n + 1) =
            garbageLoop used ((i + 1) + n) (some i) (i + 1) n := by
          simp only [garbageLoop, hu, Bool.false_eq_true, if_false]
        have hclear1 : ∀ j, i ≤ j → j < i + 1 → used j = false := by
          intro j hj1 hj2
          have : j = i := by omega
          rw [this]
          exact hu
        rw [hred, ihs (i + 1) i (by omega) hclear1 s e]
        constructor
        · rintro (⟨rfl, h2, h3, h4, h5⟩ | hB)
          · exact ⟨le_refl s, h2, h3, h4, Or.inl rfl, h5⟩
          · exact ((garbageRun_shift_of_unused used i ((i + 1) + n) s e hu).mp hB).1
        · intro hG
          rcases Nat.eq_or_lt_of_le hG.1 with heq | hlt
          · obtain ⟨g1, g2, g3, g4, g5, g6⟩ := hG
            exact Or.inl ⟨heq.symm, by omega, g3,
              fun j hj1 hj2 => g4 j (by omega) hj2, g6⟩
          · exact Or.inr
              ((garbageRun_shift_of_unused used i ((i + 1) + n) s e hu).mpr ⟨hG, hlt⟩)
    · intro i s0 hlt0 hclear0 s e
      rw [harith i]
      cases hu : used i with
      | true =>
        have hred : garbageLoop used ((i + 1) + n) (some s0) i (n + 1) =
            (s0, i) :: garbageLoop used ((i + 1) + n) none (i + 1) n := by
          simp only [garbageLoop, hu, if_true]
        rw [hred, List.mem_cons, ihn (i + 1) s e]
        constructor
        · rintro (heq | hG1)
          · injection heq with hs he
            exact Or.inl ⟨hs, by omega, by omega,
              fun j hj1 hj2 => hclear0 j hj1 (by omega), Or.inr (by rw [he]; exact hu)⟩
          · refine Or.inr ⟨(garbageRun_shift_of_used used i ((i + 1) + n) s e hu).mp hG1, ?_⟩
            have := hG1.1
            omega
        · rintro (⟨hs, h2, h3, h4, h5⟩ | ⟨hG, -⟩)
          · left
            have he : e = i := by
              by_contra hne
              rcases Nat.lt_or_ge e i with helt | hegt
              · have h5' : used e = true := by
                  rcases h5 with h5 | h5
                  · omega
                  · exact h5
                have hf := hclear0 e (by omega) helt
                rw [hf] at h5'
                exact Bool.noConfusion h5'
              · have hi_lt : i < e := by omega
                have hf := h4 i (by omega) hi_lt
                rw [hu] at hf
                exact Bool.noConfusion hf
            rw [hs, he]
          · exact Or.inr ((garbageRun_shift_of_used used i ((i + 1) + n) s e hu).mpr hG)
      | false =>
        have hred : garbageLoop used ((i + 1) + n) (some s0) i (n + 1) =
            garbageLoop used ((i + 1) + n) (some s0) (i + 1) n := by
          simp only [garbageLoop, hu, Bool.false_eq_true, if_false]
        have hclear1 : ∀ j, s0 ≤ j → j < i + 1 → used j = false := by
          intro j hj1 hj2
          rcases Nat.lt_or_ge j i with h | h
          · exact hclear0 j hj1 h
          · have : j = i := by omega
            rw [this]
            exact hu
        rw [hred, ihs (i + 1) s0 (by omega) hclear1 s e]
        exact or_congr Iff.rfl (garbageRun_shift_of_unused used i ((i + 1) + n) s e hu)

theorem garbageLoop_fst_ge (used : Nat → Bool) (hi : Nat) : ∀ (n : Nat),
    (∀ i s e, (s, e) ∈ garbageLoop used hi none i n → i ≤ s) ∧
    (∀ i s0 s e, s0 ≤ i → (s, e) ∈ garbageLoop used hi (some s0) i n → s0 ≤ s) := by
  intro n
  induction n with
  | zero =>
    constructor
    · intro i s e hm
      simp only [garbageLoop, List.not_mem_nil] at hm
    · intro i s0 s e hle hm
      simp only [garbageLoop, List.mem_singleton, Prod.mk.injEq] at hm
      omega
  | succ n ih =>
    obtain ⟨ihn, ihs⟩ := ih
    constructor
    · intro i s e hm
      cases hu : used i with
      | true =>
        simp only [garbageLoop, hu, if_true] at hm
        have := ihn (i + 1) s e hm
        omega
      | false =>
        simp only [garbageLoop, hu, Bool.false_eq_true, if_false] at hm
        exact ihs (i + 1) i s e (by omega) hm
    · intro i s0 s e hle hm
      cases hu : used i with
      | true =>
        simp only [garbageLoop, hu, if_true, List.mem_cons, Prod.mk.injEq] at hm
        rcases hm with ⟨hs, -⟩ | hm
        · omega
        · have := ihn (i + 1) s e hm
          omega
      | false =>
        simp only [garbageLoop, hu, Bool.false_eq_true, if_false] at hm
        exact ihs (i + 1) s0 s e (by omega) hm

theorem garbageLoop_pairwise (used : Nat → Bool) (hi : Nat) : ∀ (n : Nat)
    (i : Nat) (start : Option Nat),
    List.Pairwise (fun a b : Nat × Nat => a.2 ≤ b.1)
      (garbageLoop used hi start i n) := by
  intro n
  induction n with
  | zero =>
    intro i start
    cases start with
    | none => simp [garbageLoop]
    | some s0 => simp [garbageLoop]
  | succ n ih =>
    intro i start
    cases hu : used i with
    | true =>
      cases start with
      | none =>
        simp only [garbageLoop, hu, if_true]
        exact ih (i + 1) none
      | some s0 =>
        simp only [garbageLoop, hu, if_true]
        refine List.pairwise_cons.mpr ⟨?_, ih (i + 1) none⟩
        intro b hb
        have := (garbageLoop_fst_ge used hi n).1 (i + 1) b.1 b.2 (by simpa using hb)
        simpa using by omega
    | false =>
      cases start with
      | none =>
        simp only [garbageLoop, hu, Bool.false_eq_true, if_false]
        exact ih (i + 1) (some i)
      | some s0 =>
        simp only [garbageLoop, hu, Bool.false_eq_true, if_false]
        exact ih (i + 1) (some s0)

/-- C5: the garbage scan of `Dump.print_heap_garbage` reports, over
`[lo, hi)` with `lo ≤ hi`, exactly the maximal runs of consecutive unmarked
bytes — a pair is reported iff it is such a run (the run still open when the
scan reaches `hi` included, flushed with end `hi`) — in ascending order
(each reported range ends at or before the next one starts); and on a
10-byte map with only `[2,5)` marked used, scanning `[0,10)` yields exactly
`[(0,2), (5,10)]`. -/
theorem findGarbageRanges_maximal_runs :
    (∀ (used : Nat → Bool) (lo hi : Nat), lo ≤ hi →
      (∀ s e, ((s, e) ∈ findGarbageRanges used lo hi ↔ isGarbageRun used lo hi s e)) ∧
      List.Pairwise (fun a b : Nat × Nat => a.2 ≤ b.1) (findGarbageRanges used lo hi)) ∧
    findGarbageRanges (fun j => decide (2 ≤ j ∧ j < 5)) 0 10 = [(0, 2), (5, 10)] := by
  constructor
  · intro used lo hi hle
    constructor
    · intro s e
      have h := (garbageLoop_mem used (hi - lo)).1 lo s e
      have harith : lo + (hi - lo) = hi := by omega
      rw [harith] at h
      exact h
    · exact garbageLoop_pairwise used hi (hi - lo) lo none
  · decide

/-- C5 witness: the characterisation applied to the concrete 10-byte map
with `[2,5)` marked: `(0,2)` is reported and is a maximal unmarked run. -/
theorem findGarbageRanges_maximal_runs_witness :
    (0, 2) ∈ findGarbageRanges (fun j => decide (2 ≤ j ∧ j < 5)) 0 10 ↔
      isGarbageRun (fun j => decide (2 ≤ j ∧ j < 5)) 0 10 0 2 :=
  ((findGarbageRanges_maximal_runs.1 (fun j => decide (2 ≤ j ∧ j < 5)) 0 10
    (by omega)).1 0 2)

end CbmVarDump
